import Mathlib

/-!
# Verification of the suniswap client numerics and addressing library

Shallow embedding of the price codec, liquidity/amount calculator,
tick-array (bucket) indexer and PDA key deriver of the repository
(`src/app/src/lib/utils/math.ts`, `src/app/src/lib/anchor/program.ts`,
`src/app/src/lib/constants.ts`), together with theorems settling the
frozen claims about them.

Numeric modelling conventions:
* The source computes with `Decimal.js` at 40 significant digits and, for
  `sqrtPriceX64ToTick`, takes `Math.floor` of a `toNumber()` (float64)
  conversion.  The embedding uses exact rational/integer arithmetic for
  these computations: `floor (sqrt (1.0001^t) * 2^64)` is computed exactly
  over the integers, and `floor (log_1.0001 ((s/2^64)^2))` is realised as
  the greatest integer `k` with `1.0001^k ≤ (s/2^64)^2`, found by integer
  binary search over exact rational comparisons.  At every concrete input
  used below the exact value is far enough from the nearest integer that
  the source's 40-digit/float64 pipeline computes the same floor.
* `BN` values (non-negative big integers in the source) are `ℕ`;
  signed tick indices are `ℤ`; `Decimal` intermediates are `ℚ`.
-/

set_option exponentiation.threshold 2000000
set_option maxRecDepth 10000

/-! ## Constants (src/app/src/lib/constants.ts) -/

def MIN_TICK : ℤ := -443635

def MAX_TICK : ℤ := 443635

def TICK_ARRAY_SIZE : ℤ := 8

def Q64 : ℕ := 2 ^ 64

def MIN_SQRT_PRICE : ℕ := 4295128739

def MAX_SQRT_PRICE : ℕ := 79226673515401279992447579055

/-! ## Fixed-point price codec (src/app/src/lib/utils/math.ts)

`tickToSqrtPriceX64 tick` is `floor (sqrt (1.0001^tick) * 2^64)`
(source: `TICK_BASE.pow(tick).sqrt().mul(Q64_DECIMAL).floor()`), computed
exactly: writing `1.0001^t = p / q` with `p, q` powers of `10001` and
`10000`, we use `⌊√(p/q)·2^64⌋ = ⌊√(p·2^128/q)⌋ = ⌊√(p·2^128·q)⌋ / q`
(integer division). -/

def tickToSqrtPriceX64 (tick : ℤ) : ℕ :=
  if 0 ≤ tick then
    Nat.sqrt (10001 ^ tick.toNat * 2 ^ 128 * 10000 ^ tick.toNat) / 10000 ^ tick.toNat
  else
    Nat.sqrt (10000 ^ (-tick).toNat * 2 ^ 128 * 10001 ^ (-tick).toNat) / 10001 ^ (-tick).toNat

/-- Exact rational comparison `1.0001^k ≤ x / 2^128`, written over `ℕ`.
For `x = s^2` this says tick `k`'s price is at most the price encoded by
the square-root price `s`. -/
def tickLe (k : ℤ) (x : ℕ) : Bool :=
  if 0 ≤ k then decide (10001 ^ k.toNat * 2 ^ 128 ≤ x * 10000 ^ k.toNat)
  else decide (10000 ^ (-k).toNat * 2 ^ 128 ≤ x * 10001 ^ (-k).toNat)

/-- Fuelled binary search: given `f lo = true` and `f hi = false` for an
antitone `f`, finds the greatest `k ∈ [lo, hi)` with `f k = true`. -/
def searchGreatest (f : ℤ → Bool) : ℕ → ℤ → ℤ → ℤ
  | 0, lo, _ => lo
  | fuel + 1, lo, hi =>
    if hi ≤ lo + 1 then lo
    else
      let mid := lo + (hi - lo) / 2
      if f mid then searchGreatest f fuel mid hi else searchGreatest f fuel lo mid

/-- `sqrtPriceX64ToTick s` is
`Math.floor (ln ((s/2^64)^2) / ln 1.0001)` from the source, realised
exactly as the greatest `k` with `1.0001^k ≤ (s/2^64)^2`.  The search
window `[-2^19, 2^19]` strictly contains every tick the protocol can
represent (`±443635`) as well as every value appearing in the claims;
outside the window the model saturates at the window edge. -/
def sqrtPriceX64ToTick (s : ℕ) : ℤ :=
  let x := s * s
  if tickLe (2 ^ 19) x then 2 ^ 19
  else if tickLe (-(2 ^ 19)) x then
    searchGreatest (fun k => tickLe k x) 40 (-(2 ^ 19)) (2 ^ 19)
  else -(2 ^ 19)

/-- `clampTick` (src/app/src/lib/utils/math.ts:78-80):
`Math.max(MIN_TICK, Math.min(MAX_TICK, tick))`. -/
def clampTick (tick : ℤ) : ℤ :=
  max MIN_TICK (min MAX_TICK tick)

/-! ## Liquidity / amount calculator (src/app/src/lib/utils/math.ts)

`Decimal` intermediates become exact `ℚ`; the final `.floor()` / `.ceil()`
become `Int.floor` / `Int.ceil`. -/

/-- The `Decimal`-valued core of `getAmountsFromLiquidity`
(src/app/src/lib/utils/math.ts:144-173): the branch on the position of
`sqrtPrice` relative to `[sqrtPriceLower, sqrtPriceUpper]` and the two
pre-rounding amounts, in source order. -/
def getAmountsFromLiquidityQ (sqrtPriceX64 sqrtPriceLowerX64 sqrtPriceUpperX64 liquidity : ℕ) :
    ℚ × ℚ :=
  let sqrtPrice : ℚ := sqrtPriceX64
  let sqrtPriceLower : ℚ := sqrtPriceLowerX64
  let sqrtPriceUpper : ℚ := sqrtPriceUpperX64
  let liquidityDec : ℚ := liquidity
  if sqrtPrice ≤ sqrtPriceLower then
    (liquidityDec * (sqrtPriceUpper - sqrtPriceLower) / (sqrtPriceLower * sqrtPriceUpper), 0)
  else if sqrtPrice ≥ sqrtPriceUpper then
    (0, liquidityDec * (sqrtPriceUpper - sqrtPriceLower) / (Q64 : ℚ))
  else
    (liquidityDec * (sqrtPriceUpper - sqrtPrice) / (sqrtPrice * sqrtPriceUpper),
     liquidityDec * (sqrtPrice - sqrtPriceLower) / (Q64 : ℚ))

/-- `getAmountsFromLiquidity` (src/app/src/lib/utils/math.ts:144-181):
computes the two `Decimal` amounts and rounds both with
`roundUp ? ceil : floor`. -/
def getAmountsFromLiquidity (sqrtPriceX64 sqrtPriceLowerX64 sqrtPriceUpperX64 liquidity : ℕ)
    (roundUp : Bool) : ℤ × ℤ :=
  let q := getAmountsFromLiquidityQ sqrtPriceX64 sqrtPriceLowerX64 sqrtPriceUpperX64 liquidity
  (if roundUp then ⌈q.1⌉ else ⌊q.1⌋, if roundUp then ⌈q.2⌉ else ⌊q.2⌋)

/-- A call of `getAmountsFromLiquidity` that omits the `roundUp`
argument: the source declares `roundUp: boolean = false`, so such a call
runs with `roundUp = false`. -/
def getAmountsFromLiquidityDefault (sqrtPriceX64 sqrtPriceLowerX64 sqrtPriceUpperX64
    liquidity : ℕ) : ℤ × ℤ :=
  getAmountsFromLiquidity sqrtPriceX64 sqrtPriceLowerX64 sqrtPriceUpperX64 liquidity false

/-- `getLiquidityFromAmounts` (src/app/src/lib/utils/math.ts:104-139). -/
def getLiquidityFromAmounts (sqrtPriceX64 sqrtPriceLowerX64 sqrtPriceUpperX64
    amountA amountB : ℕ) : ℤ :=
  let sqrtPrice : ℚ := sqrtPriceX64
  let sqrtPriceLower : ℚ := sqrtPriceLowerX64
  let sqrtPriceUpper : ℚ := sqrtPriceUpperX64
  let amountADec : ℚ := amountA
  let amountBDec : ℚ := amountB
  let liquidity : ℚ :=
    if sqrtPrice ≤ sqrtPriceLower then
      amountADec * sqrtPriceLower * sqrtPriceUpper / (sqrtPriceUpper - sqrtPriceLower)
    else if sqrtPrice ≥ sqrtPriceUpper then
      amountBDec * (Q64 : ℚ) / (sqrtPriceUpper - sqrtPriceLower)
    else
      min (amountADec * sqrtPrice * sqrtPriceUpper / (sqrtPriceUpper - sqrtPrice))
        (amountBDec * (Q64 : ℚ) / (sqrtPrice - sqrtPriceLower))
  ⌊liquidity⌋

/-! Spec-side formulas (for the refinement claims): the three-branch
piecewise amount formulas and the two single-token implied-liquidity
formulas, written exactly as in the specification (§4.2). -/

/-- Spec §4.2, token-A amount: `P ≤ P_lower ⇒ L·(P_upper−P_lower)/(P_lower·P_upper)`;
`P ≥ P_upper ⇒ 0`; in range `L·(P_upper−P)/(P·P_upper)`. -/
def specAmountA (p pLower pUpper liq : ℚ) : ℚ :=
  if p ≤ pLower then liq * (pUpper - pLower) / (pLower * pUpper)
  else if p ≥ pUpper then 0
  else liq * (pUpper - p) / (p * pUpper)

/-- Spec §4.2, token-B amount: `P ≤ P_lower ⇒ 0`;
`P ≥ P_upper ⇒ L·(P_upper−P_lower)/2^64`; in range `L·(P−P_lower)/2^64`. -/
def specAmountB (p pLower pUpper liq : ℚ) : ℚ :=
  if p ≤ pLower then 0
  else if p ≥ pUpper then liq * (pUpper - pLower) / 2 ^ 64
  else liq * (p - pLower) / 2 ^ 64

/-- Spec (claim C3): liquidity implied by `amountA` alone,
`amountA·P·P_upper/(P_upper − P)`. -/
def specLiquidityFromA (p pUpper amountA : ℚ) : ℚ :=
  amountA * p * pUpper / (pUpper - p)

/-- Spec (claim C3): liquidity implied by `amountB` alone,
`amountB·2^64/(P − P_lower)`. -/
def specLiquidityFromB (p pLower amountB : ℚ) : ℚ :=
  amountB * 2 ^ 64 / (p - pLower)

/-! ## Range/bucket indexer and key deriver (src/app/src/lib/anchor/program.ts)

`PublicKey` values are byte lists; `Buffer.compare` is lexicographic byte
comparison; `PublicKey.findProgramAddressSync` is a deterministic function
of the seed list and the program id, modelled as the pair of its inputs
(sound for all equality reasoning used here). -/

abbrev Bytes := List ℕ

/-- `Buffer.compare` on byte arrays: lexicographic, a strict prefix is
smaller, `eq` exactly on identical arrays. -/
def compareBytes : Bytes → Bytes → Ordering
  | [], [] => .eq
  | [], _ :: _ => .lt
  | _ :: _, [] => .gt
  | a :: as, b :: bs =>
    if a < b then .lt else if b < a then .gt else compareBytes as bs

/-- A program-derived address, identified by the inputs of
`PublicKey.findProgramAddressSync` (deterministic in them). -/
structure DerivedAddress where
  seeds : List Bytes
  programId : Bytes
deriving DecidableEq

/-- `PublicKey.findProgramAddressSync(seeds, programId)`, modelled by its
inputs. -/
def findProgramAddress (seeds : List Bytes) (programId : Bytes) : DerivedAddress :=
  ⟨seeds, programId⟩

/-- `PROGRAM_ID` (src/app/src/lib/constants.ts:14): the 32 bytes of
`D3mEetFkLuB1sia8Bvvv2nmt9k6RsJPAGR2PE6tj7EFq` (devnet). -/
def PROGRAM_ID : Bytes :=
  [179, 1, 107, 255, 3, 237, 22, 248, 19, 216, 80, 218, 230, 215, 115, 234,
   97, 221, 115, 197, 169, 78, 77, 211, 140, 223, 122, 64, 54, 255, 158, 96]

/-- `u32ToLeBytes` (src/app/src/lib/anchor/program.ts:47-51). -/
def u32ToLeBytes (value : ℕ) : Bytes :=
  [value % 256, value / 2 ^ 8 % 256, value / 2 ^ 16 % 256, value / 2 ^ 24 % 256]

/-- `orderTokenMints` (src/app/src/lib/anchor/program.ts:131-139):
byte-lexicographically smaller mint first; equal mints throw
`Error("Token mints must be different")`. -/
def orderTokenMints (mintA mintB : Bytes) : Except String (Bytes × Bytes) :=
  match compareBytes mintA mintB with
  | .lt => .ok (mintA, mintB)
  | .gt => .ok (mintB, mintA)
  | .eq => .error "Token mints must be different"

/-- `getPoolPda` (src/app/src/lib/anchor/program.ts:73-85): orders the
mints, then derives from seeds `["pool", mintA, mintB, feeRate_le]`.
The thrown ordering error propagates. -/
def getPoolPda (tokenMintA tokenMintB : Bytes) (feeRate : ℕ) :
    Except String DerivedAddress := do
  let (mintA, mintB) ← orderTokenMints tokenMintA tokenMintB
  pure (findProgramAddress [[112, 111, 111, 108], mintA, mintB, u32ToLeBytes feeRate] PROGRAM_ID)

/-- `getTickArrayPda` (src/app/src/lib/anchor/program.ts:100-105): seeds
`["tick_array", pool.toBuffer(), i32ToLeBytes(startTickIndex)]`, where the
`pool` argument is a public key (32 bytes).  `i32ToLeBytes` of the
(possibly negative) index is its two's-complement value's little-endian
bytes, i.e. `u32ToLeBytes` of the index mod `2^32`. -/
def getTickArrayPda (pool : Bytes) (startTickIndex : ℤ) : DerivedAddress :=
  findProgramAddress
    [[116, 105, 99, 107, 95, 97, 114, 114, 97, 121], pool,
      u32ToLeBytes ((startTickIndex % 2 ^ 32).toNat)] PROGRAM_ID

/-- `getTickArrayStartIndex` (src/app/src/lib/anchor/program.ts:144-147):
`Math.floor(tick / (8·tickSpacing)) * (8·tickSpacing)`; `Math.floor` of
the real quotient is floored (F-) integer division. -/
def getTickArrayStartIndex (tick tickSpacing : ℤ) : ℤ :=
  let ticksPerArray := 8 * tickSpacing
  Int.fdiv tick ticksPerArray * ticksPerArray

/-- The loop body of `getSwapTickArrays`
(src/app/src/lib/anchor/program.ts:164-174): starting from `startIndex`,
emit `count` entries, stepping by `-ticksPerArray` when `aToB` and by
`+ticksPerArray` otherwise. -/
def swapTickArraysLoop (pool : Bytes) (ticksPerArray : ℤ) (aToB : Bool) :
    ℕ → ℤ → List (DerivedAddress × ℤ)
  | 0, _ => []
  | count + 1, startIndex =>
    (getTickArrayPda pool startIndex, startIndex) ::
      swapTickArraysLoop pool ticksPerArray aToB count
        (if aToB then startIndex - ticksPerArray else startIndex + ticksPerArray)

/-- `getSwapTickArrays` (src/app/src/lib/anchor/program.ts:152-177). -/
def getSwapTickArrays (pool : Bytes) (currentTick tickSpacing : ℤ) (aToB : Bool)
    (count : ℕ) : List (DerivedAddress × ℤ) :=
  swapTickArraysLoop pool (8 * tickSpacing) aToB count
    (getTickArrayStartIndex currentTick tickSpacing)

/-! ## Lemmas about the price codec -/

/-- `tickLe` is antitone in the tick: a smaller tick has a price at most
that of a larger tick. -/
lemma tickLe_antitone {k k' : ℤ} (hkk : k ≤ k') {x : ℕ} (h : tickLe k' x = true) :
    tickLe k x = true := by
  unfold tickLe at h ⊢
  by_cases h0 : 0 ≤ k
  · have h0' : 0 ≤ k' := le_trans h0 hkk
    simp only [h0, h0', if_true, decide_eq_true_eq] at h ⊢
    obtain ⟨e, he⟩ : ∃ e, k'.toNat = k.toNat + e := ⟨k'.toNat - k.toNat, by omega⟩
    rw [he, pow_add, pow_add] at h
    have hd : (10000 : ℕ) ^ e ≤ 10001 ^ e := Nat.pow_le_pow_left (by norm_num) e
    have h1 : 10001 ^ k.toNat * 2 ^ 128 * 10000 ^ e ≤ x * 10000 ^ k.toNat * 10000 ^ e := by
      calc 10001 ^ k.toNat * 2 ^ 128 * 10000 ^ e
          ≤ 10001 ^ k.toNat * 2 ^ 128 * 10001 ^ e := Nat.mul_le_mul_left _ hd
        _ = 10001 ^ k.toNat * 10001 ^ e * 2 ^ 128 := by ring
        _ ≤ x * (10000 ^ k.toNat * 10000 ^ e) := h
        _ = x * 10000 ^ k.toNat * 10000 ^ e := by ring
    exact Nat.le_of_mul_le_mul_right h1 (Nat.pos_pow_of_pos e (by norm_num))
  · by_cases h0' : 0 ≤ k'
    · simp only [h0, h0', if_true, if_false, decide_eq_true_eq] at h ⊢
      have hx : 2 ^ 128 ≤ x := by
        have h1 : 10000 ^ k'.toNat * 2 ^ 128 ≤ 10001 ^ k'.toNat * 2 ^ 128 :=
          Nat.mul_le_mul_right _ (Nat.pow_le_pow_left (by norm_num) _)
        have h2 : 2 ^ 128 * 10000 ^ k'.toNat ≤ x * 10000 ^ k'.toNat := by
          calc 2 ^ 128 * 10000 ^ k'.toNat = 10000 ^ k'.toNat * 2 ^ 128 := by ring
            _ ≤ 10001 ^ k'.toNat * 2 ^ 128 := h1
            _ ≤ x * 10000 ^ k'.toNat := h
        exact Nat.le_of_mul_le_mul_right h2 (Nat.pos_pow_of_pos _ (by norm_num))
      calc 10000 ^ (-k).toNat * 2 ^ 128
          ≤ 10001 ^ (-k).toNat * 2 ^ 128 :=
            Nat.mul_le_mul_right _ (Nat.pow_le_pow_left (by norm_num) _)
        _ ≤ 10001 ^ (-k).toNat * x := Nat.mul_le_mul_left _ hx
        _ = x * 10001 ^ (-k).toNat := by ring
    · simp only [h0, h0', if_false, decide_eq_true_eq] at h ⊢
      obtain ⟨e, he⟩ : ∃ e, (-k).toNat = (-k').toNat + e := ⟨(-k).toNat - (-k').toNat, by omega⟩
      rw [he, pow_add, pow_add]
      have hd : (10000 : ℕ) ^ e ≤ 10001 ^ e := Nat.pow_le_pow_left (by norm_num) e
      calc 10000 ^ (-k').toNat * 10000 ^ e * 2 ^ 128
          = 10000 ^ (-k').toNat * 2 ^ 128 * 10000 ^ e := by ring
        _ ≤ x * 10001 ^ (-k').toNat * 10000 ^ e := Nat.mul_le_mul_right _ h
        _ ≤ x * 10001 ^ (-k').toNat * 10001 ^ e := Nat.mul_le_mul_left _ hd
        _ = x * (10001 ^ (-k').toNat * 10001 ^ e) := by ring

/-- Correctness of the fuelled binary search: with a true left endpoint, a
false right endpoint and enough fuel, it finds a `k` with `f k = true` and
`f (k+1) = false`, inside `[lo, hi)`. -/
lemma searchGreatest_spec (f : ℤ → Bool) :
    ∀ (fuel : ℕ) (lo hi : ℤ), f lo = true → f hi = false → lo < hi → hi ≤ lo + 2 ^ fuel →
      f (searchGreatest f fuel lo hi) = true ∧ f (searchGreatest f fuel lo hi + 1) = false ∧
        lo ≤ searchGreatest f fuel lo hi ∧ searchGreatest f fuel lo hi < hi := by
  intro fuel
  induction fuel with
  | zero =>
    intro lo hi hlo hhi hlt hle
    norm_num at hle
    have heq : hi = lo + 1 := by omega
    exact ⟨hlo, heq ▸ hhi, le_refl _, hlt⟩
  | succ n ih =>
    intro lo hi hlo hhi hlt hle
    have hp : (2 : ℤ) ^ (n + 1) = 2 ^ n * 2 := pow_succ 2 n
    simp only [searchGreatest]
    by_cases hsmall : hi ≤ lo + 1
    · have heq : hi = lo + 1 := by omega
      simp only [hsmall, if_true]
      exact ⟨hlo, heq ▸ hhi, le_refl _, hlt⟩
    · simp only [hsmall, if_false]
      have hmidlo : lo < lo + (hi - lo) / 2 := by omega
      have hmidhi : lo + (hi - lo) / 2 < hi := by omega
      by_cases hmid : f (lo + (hi - lo) / 2) = true
      · simp only [hmid, if_true]
        have hfuel : hi ≤ lo + (hi - lo) / 2 + 2 ^ n := by omega
        obtain ⟨ha, hb, hc, hd⟩ := ih (lo + (hi - lo) / 2) hi hmid hhi hmidhi hfuel
        exact ⟨ha, hb, le_trans (le_of_lt hmidlo) hc, hd⟩
      · simp only [hmid, if_false]
        have hmid' : f (lo + (hi - lo) / 2) = false := by
          cases hfm : f (lo + (hi - lo) / 2) with
          | true => exact absurd hfm hmid
          | false => rfl
        have hfuel : lo + (hi - lo) / 2 ≤ lo + 2 ^ n := by omega
        obtain ⟨ha, hb, hc, hd⟩ := ih lo (lo + (hi - lo) / 2) hlo hmid' hmidlo hfuel
        exact ⟨ha, hb, hc, lt_trans hd hmidhi⟩

/-- Determination of `sqrtPriceX64ToTick`: if `k` satisfies
`1.0001^k ≤ (s/2^64)^2 < 1.0001^(k+1)` and lies inside the search window,
then `sqrtPriceX64ToTick s = k`. -/
lemma sqrtPriceX64ToTick_eq {s : ℕ} {k : ℤ} (h1 : tickLe k (s * s) = true)
    (h2 : tickLe (k + 1) (s * s) = false) (hlo : -(2 ^ 19) ≤ k) (hhi : k < 2 ^ 19) :
    sqrtPriceX64ToTick s = k := by
  have hhiF : tickLe (2 ^ 19) (s * s) = false := by
    cases hF : tickLe (2 ^ 19) (s * s) with
    | false => rfl
    | true =>
      have := tickLe_antitone (by omega : k + 1 ≤ 2 ^ 19) hF
      rw [h2] at this
      exact absurd this (by simp)
  have hloT : tickLe (-(2 ^ 19)) (s * s) = true := tickLe_antitone hlo h1
  unfold sqrtPriceX64ToTick
  simp only [hhiF, hloT, Bool.false_eq_true, if_false, if_true]
  obtain ⟨ha, hb, hc, hd⟩ :=
    searchGreatest_spec (fun j => tickLe j (s * s)) 40 (-(2 ^ 19)) (2 ^ 19) hloT hhiF
      (by norm_num) (by norm_num)
  set r := searchGreatest (fun j => tickLe j (s * s)) 40 (-(2 ^ 19)) (2 ^ 19) with hr
  rcases lt_trichotomy r k with hlt | heq | hgt
  · have := tickLe_antitone (by omega : r + 1 ≤ k) h1
    rw [hb] at this
    exact absurd this (by simp)
  · exact heq
  · have := tickLe_antitone (by omega : k + 1 ≤ r) ha
    rw [h2] at this
    exact absurd this (by simp)

/-- Flooring bound for the exact square-root computation: with
`s = ⌊√(a·q)⌋ / q` (so `s = ⌊√(a/q)⌋` for the rational `a/q`),
`s² · q ≤ a`. -/
lemma div_sqrt_sq_le (a q : ℕ) (hq : 0 < q) :
    Nat.sqrt (a * q) / q * (Nat.sqrt (a * q) / q) * q ≤ a := by
  have h1 : Nat.sqrt (a * q) / q * q ≤ Nat.sqrt (a * q) := Nat.div_mul_le_self _ _
  have h2 : Nat.sqrt (a * q) * Nat.sqrt (a * q) ≤ a * q := Nat.sqrt_le _
  have h3 : Nat.sqrt (a * q) / q * (Nat.sqrt (a * q) / q) * q * q ≤ a * q := by
    calc Nat.sqrt (a * q) / q * (Nat.sqrt (a * q) / q) * q * q
        = (Nat.sqrt (a * q) / q * q) * (Nat.sqrt (a * q) / q * q) := by ring
      _ ≤ Nat.sqrt (a * q) * Nat.sqrt (a * q) := Nat.mul_le_mul h1 h1
      _ ≤ a * q := h2
  exact Nat.le_of_mul_le_mul_right h3 hq

/-- `tickLe k x` is false when the defining inequality fails, nonnegative case. -/
lemma tickLe_false_nonneg {k : ℤ} (hk : 0 ≤ k) {x : ℕ}
    (h : x * 10000 ^ k.toNat < 10001 ^ k.toNat * 2 ^ 128) : tickLe k x = false := by
  unfold tickLe
  simp only [hk, if_true, decide_eq_false_iff_not, not_le]
  omega

/-- `tickLe k x` is false when the defining inequality fails, negative case. -/
lemma tickLe_false_neg {k : ℤ} (hk : ¬ 0 ≤ k) {x : ℕ}
    (h : x * 10001 ^ (-k).toNat < 10000 ^ (-k).toNat * 2 ^ 128) : tickLe k x = false := by
  unfold tickLe
  simp only [hk, if_false, decide_eq_false_iff_not, not_le]
  omega

/-- Unfolding `tickToSqrtPriceX64` for nonnegative ticks. -/
lemma tickToSqrtPriceX64_nonneg {t : ℤ} (ht : 0 ≤ t) :
    tickToSqrtPriceX64 t =
      Nat.sqrt (10001 ^ t.toNat * 2 ^ 128 * 10000 ^ t.toNat) / 10000 ^ t.toNat := by
  unfold tickToSqrtPriceX64
  simp [ht]

/-- Unfolding `tickToSqrtPriceX64` for negative ticks. -/
lemma tickToSqrtPriceX64_neg {t : ℤ} (ht : ¬ 0 ≤ t) :
    tickToSqrtPriceX64 t =
      Nat.sqrt (10000 ^ (-t).toNat * 2 ^ 128 * 10001 ^ (-t).toNat) / 10001 ^ (-t).toNat := by
  unfold tickToSqrtPriceX64
  simp [ht]

/-- The squared output of `tickToSqrtPriceX64 t` encodes a price strictly
below `1.0001^(t+1)`: the conversion floors, so converting back can never
land above `t`. -/
lemma tickLe_succ_tickToSqrt (t : ℤ) :
    tickLe (t + 1) (tickToSqrtPriceX64 t * tickToSqrtPriceX64 t) = false := by
  by_cases h0 : 0 ≤ t
  · have h01 : 0 ≤ t + 1 := by omega
    have ht1 : (t + 1).toNat = t.toNat + 1 := by omega
    apply tickLe_false_nonneg h01
    rw [tickToSqrtPriceX64_nonneg h0, ht1, pow_succ, pow_succ]
    have key := div_sqrt_sq_le (10001 ^ t.toNat * 2 ^ 128) (10000 ^ t.toNat)
      (Nat.pos_pow_of_pos _ (by norm_num))
    set s := Nat.sqrt (10001 ^ t.toNat * 2 ^ 128 * 10000 ^ t.toNat) / 10000 ^ t.toNat with hs
    have hpos : (0:ℕ) < 10001 ^ t.toNat * 2 ^ 128 := by positivity
    calc s * s * (10000 ^ t.toNat * 10000) = s * s * 10000 ^ t.toNat * 10000 := by ring
      _ ≤ 10001 ^ t.toNat * 2 ^ 128 * 10000 := Nat.mul_le_mul_right _ key
      _ < 10001 ^ t.toNat * 2 ^ 128 * 10001 := by omega
      _ = 10001 ^ t.toNat * 10001 * 2 ^ 128 := by ring
  · by_cases h1 : 0 ≤ t + 1
    · have ht : t = -1 := by omega
      subst ht
      apply tickLe_false_nonneg h1
      rw [tickToSqrtPriceX64_neg h0]
      norm_num
    · have hm1 : (-t).toNat = (-(t + 1)).toNat + 1 := by omega
      apply tickLe_false_neg h1
      rw [tickToSqrtPriceX64_neg h0, hm1]
      have key := div_sqrt_sq_le (10000 ^ ((-(t + 1)).toNat + 1) * 2 ^ 128)
        (10001 ^ ((-(t + 1)).toNat + 1)) (Nat.pos_pow_of_pos _ (by norm_num))
      set s := Nat.sqrt (10000 ^ ((-(t + 1)).toNat + 1) * 2 ^ 128 *
        10001 ^ ((-(t + 1)).toNat + 1)) / 10001 ^ ((-(t + 1)).toNat + 1) with hs
      set m := (-(t + 1)).toNat with hmdef
      -- key : s * s * 10001 ^ (m + 1) ≤ 10000 ^ (m + 1) * 2 ^ 128
      -- goal : s * s * 10001 ^ m < 10000 ^ m * 2 ^ 128
      rw [pow_succ, pow_succ] at key
      have hpos : (0:ℕ) < 10000 ^ m * 2 ^ 128 := by positivity
      have h2 : s * s * 10001 ^ m * 10001 < 10000 ^ m * 2 ^ 128 * 10001 := by
        calc s * s * 10001 ^ m * 10001 = s * s * (10001 ^ m * 10001) := by ring
          _ ≤ 10000 ^ m * 10000 * 2 ^ 128 := key
          _ = 10000 ^ m * 2 ^ 128 * 10000 := by ring
          _ < 10000 ^ m * 2 ^ 128 * 10001 := by omega
      exact Nat.lt_of_mul_lt_mul_right h2

/-- Concrete value: `tickToSqrtPriceX64 1 = ⌊√1.0001 · 2^64⌋`. -/
lemma tickToSqrtPriceX64_one : tickToSqrtPriceX64 1 = 18447666387855959850 := by
  rw [tickToSqrtPriceX64_nonneg (by norm_num)]
  have h1 : (184476663878559598508959 : ℕ) =
      Nat.sqrt (10001 ^ (1:ℤ).toNat * 2 ^ 128 * 10000 ^ (1:ℤ).toNat) :=
    Nat.eq_sqrt.mpr (by norm_num)
  rw [← h1]
  norm_num

/-! ## Claim C1: tick → sqrt price → tick round trip -/

/-- **C1 (counterexample).**  The round trip is not the identity on every
valid tick: at the valid tick `t = 1`, `tickToSqrtPriceX64 1` floors
`√1.0001·2^64` down, the price it encodes falls strictly below `1.0001^1`,
and converting back yields `0`, not `1`. -/
theorem tick_roundtrip_not_id :
    MIN_TICK ≤ 1 ∧ (1:ℤ) ≤ MAX_TICK ∧ sqrtPriceX64ToTick (tickToSqrtPriceX64 1) = 0 := by
  refine ⟨by norm_num [MIN_TICK], by norm_num [MAX_TICK], ?_⟩
  rw [tickToSqrtPriceX64_one]
  exact sqrtPriceX64ToTick_eq (by decide) (by decide) (by norm_num) (by norm_num)

/-- **C1 (amended).**  For every valid tick `t`, the round trip
`sqrtPriceX64ToTick (tickToSqrtPriceX64 t)` never exceeds `t` (both
conversions floor), but it is not always equal to `t`:
`tick_roundtrip_not_id` shows it returns `0` at `t = 1`. -/
theorem tick_roundtrip_le (t : ℤ) (hmin : MIN_TICK ≤ t) (hmax : t ≤ MAX_TICK) :
    sqrtPriceX64ToTick (tickToSqrtPriceX64 t) ≤ t := by
  have hsucc := tickLe_succ_tickToSqrt t
  set s := tickToSqrtPriceX64 t with hs
  have hhiF : tickLe (2 ^ 19) (s * s) = false := by
    cases hF : tickLe (2 ^ 19) (s * s) with
    | false => rfl
    | true =>
      have h2 : t + 1 ≤ 2 ^ 19 := by
        have : t ≤ 443635 := hmax
        omega
      have := tickLe_antitone h2 hF
      rw [hsucc] at this
      exact absurd this (by simp)
  unfold sqrtPriceX64ToTick
  simp only [hhiF, Bool.false_eq_true, if_false]
  cases hloT : tickLe (-(2 ^ 19)) (s * s) with
  | false =>
    simp only [hloT, Bool.false_eq_true, if_false]
    have : (-443635 : ℤ) ≤ t := hmin
    omega
  | true =>
    simp only [hloT, if_true]
    obtain ⟨ha, hb, hc, hd⟩ :=
      searchGreatest_spec (fun j => tickLe j (s * s)) 40 (-(2 ^ 19)) (2 ^ 19) hloT hhiF
        (by norm_num) (by norm_num)
    set r := searchGreatest (fun j => tickLe j (s * s)) 40 (-(2 ^ 19)) (2 ^ 19) with hr
    by_contra hgt
    push_neg at hgt
    have := tickLe_antitone (by omega : t + 1 ≤ r) ha
    rw [hsucc] at this
    exact absurd this (by simp)

/-- **C1 (witness).**  The amended bound applied at the concrete valid
tick `t = 0`. -/
theorem tick_roundtrip_le_witness :
    sqrtPriceX64ToTick (tickToSqrtPriceX64 0) ≤ 0 :=
  tick_roundtrip_le 0 (by norm_num [MIN_TICK]) (by norm_num [MAX_TICK])

/-! ## Claim C4: no domain errors, silent clamping -/

/-- Concrete evaluation: the out-of-range square-root price `10^9`
(below `MIN_SQRT_PRICE`) is converted to an ordinary tick. -/
lemma sqrtPriceX64ToTick_oneBillion : sqrtPriceX64ToTick 1000000000 = -472787 :=
  sqrtPriceX64ToTick_eq (by decide) (by decide) (by norm_num) (by norm_num)

/-- **C4 (counterexample).**  `sqrtPriceX64ToTick` does not fail on inputs
outside `[MIN_SQRT_PRICE, MAX_SQRT_PRICE]`: at the out-of-range input
`10^9 < MIN_SQRT_PRICE` it returns the ordinary tick `-472787`; and the
price-codec module's `clampTick` silently clamps the out-of-bounds tick
`MAX_TICK + 1` to `MAX_TICK`. -/
theorem sqrtPriceX64ToTick_out_of_range_returns :
    (1000000000 : ℕ) < MIN_SQRT_PRICE ∧ sqrtPriceX64ToTick 1000000000 = -472787 ∧
      clampTick (MAX_TICK + 1) = MAX_TICK := by
  refine ⟨by norm_num [MIN_SQRT_PRICE], sqrtPriceX64ToTick_oneBillion, ?_⟩
  simp only [clampTick, MIN_TICK, MAX_TICK, max_def, min_def]
  norm_num

/-- **C4 (amended).**  `sqrtPriceX64ToTick` has no domain check: on the
out-of-range input `10^9` it returns the tick `-472787`, itself below
`MIN_TICK`, instead of failing; and the codec exposes `clampTick`, which
silently clamps every out-of-bounds tick into `[MIN_TICK, MAX_TICK]`. -/
theorem priceCodec_never_errors_and_clamps :
    (sqrtPriceX64ToTick 1000000000 = -472787 ∧ sqrtPriceX64ToTick 1000000000 < MIN_TICK) ∧
    ∀ t : ℤ, t < MIN_TICK ∨ MAX_TICK < t →
      clampTick t ≠ t ∧ MIN_TICK ≤ clampTick t ∧ clampTick t ≤ MAX_TICK := by
  constructor
  · exact ⟨sqrtPriceX64ToTick_oneBillion, by rw [sqrtPriceX64ToTick_oneBillion]; norm_num [MIN_TICK]⟩
  · intro t ht
    have ht' : t < -443635 ∨ 443635 < t := by
      simpa [MIN_TICK, MAX_TICK] using ht
    refine ⟨?_, ?_, ?_⟩ <;>
      · simp only [clampTick, MIN_TICK, MAX_TICK, max_def, min_def]
        split_ifs <;> omega

/-- **C4 (witness).**  The clamping part applied at the concrete
out-of-bounds tick `MAX_TICK + 1 = 443636`. -/
theorem priceCodec_never_errors_and_clamps_witness :
    clampTick 443636 ≠ 443636 ∧ MIN_TICK ≤ clampTick 443636 ∧ clampTick 443636 ≤ MAX_TICK :=
  priceCodec_never_errors_and_clamps.2 443636 (by norm_num [MIN_TICK, MAX_TICK])

/-! ## Claim C5: omitted rounding mode -/

/-- **C5 (counterexample).**  A call of the amounts-from-liquidity
computation that omits the rounding direction does not fail: with the
in-range inputs `P = 2^64`, `P_lower = 2^63`, `P_upper = 2^65`,
`L = 10^6` it silently proceeds and returns the floor-rounded amounts
`(0, 500000)`. -/
theorem getAmounts_default_no_error :
    getAmountsFromLiquidityDefault (2 ^ 64) (2 ^ 63) (2 ^ 65) 1000000 = (0, 500000) := by
  simp only [getAmountsFromLiquidityDefault, getAmountsFromLiquidity,
    getAmountsFromLiquidityQ, Q64]
  rw [if_neg (by push_cast; norm_num), if_neg (by push_cast; norm_num)]
  rw [Prod.mk.injEq]
  constructor
  · rw [show ((1000000 : ℕ) : ℚ) * (((2:ℕ)^65 : ℕ) - ((2:ℕ)^64 : ℕ)) /
        (((2:ℕ)^64 : ℕ) * ((2:ℕ)^65 : ℕ)) = 1000000 / 2 ^ 65 by push_cast; ring]
    rw [Int.floor_eq_zero_iff, Set.mem_Ico]
    constructor <;> norm_num
  · rw [show ((1000000 : ℕ) : ℚ) * (((2:ℕ)^64 : ℕ) - ((2:ℕ)^63 : ℕ)) /
        ((2 ^ 64 : ℕ) : ℚ) = 500000 by push_cast; ring]
    norm_num

/-- **C5 (amended).**  A call omitting the rounding direction does not
raise any error: the parameter defaults to `false` and both amounts are
rounded down (floor). -/
theorem getAmounts_default_is_floor (p pl pu liquidity : ℕ) :
    getAmountsFromLiquidityDefault p pl pu liquidity =
      getAmountsFromLiquidity p pl pu liquidity false ∧
    getAmountsFromLiquidity p pl pu liquidity false =
      (⌊(getAmountsFromLiquidityQ p pl pu liquidity).1⌋,
       ⌊(getAmountsFromLiquidityQ p pl pu liquidity).2⌋) :=
  ⟨rfl, rfl⟩

/-! ## Claim C2: the three-branch amount formulas -/

/-- **C2.**  `getAmountsFromLiquidity` computes exactly the spec's
three-branch piecewise formulas (branch selected by the position of `P`
relative to `[P_lower, P_upper]`), and whenever `P ≤ P_lower` the token-B
amount is the exact rational `0` — not a value merely rounding to zero —
so the rounded result is `0` as well. -/
theorem getAmountsFromLiquidity_matches_spec (p pl pu liquidity : ℕ) (roundUp : Bool) :
    getAmountsFromLiquidityQ p pl pu liquidity =
      (specAmountA p pl pu liquidity, specAmountB p pl pu liquidity) ∧
    ((p : ℚ) ≤ (pl : ℚ) →
      (getAmountsFromLiquidityQ p pl pu liquidity).2 = 0 ∧
      (getAmountsFromLiquidity p pl pu liquidity roundUp).2 = 0) := by
  have hmain : getAmountsFromLiquidityQ p pl pu liquidity =
      (specAmountA p pl pu liquidity, specAmountB p pl pu liquidity) := by
    simp only [getAmountsFromLiquidityQ, specAmountA, specAmountB, Q64]
    split_ifs <;> rw [Prod.mk.injEq] <;> constructor <;> push_cast <;> ring
  have hB : (p : ℚ) ≤ (pl : ℚ) → specAmountB p pl pu liquidity = 0 := by
    intro h
    simp only [specAmountB, if_pos h]
  refine ⟨hmain, fun h => ⟨?_, ?_⟩⟩
  · rw [hmain]
    exact hB h
  · simp only [getAmountsFromLiquidity, hmain, hB h]
    cases roundUp <;> simp

/-- **C2 (witness).**  The branch correspondence and the exact zero at the
concrete below-range input `P = 1 ≤ P_lower = 2 < P_upper = 3`, `L = 5`. -/
theorem getAmountsFromLiquidity_matches_spec_witness :
    getAmountsFromLiquidityQ 1 2 3 5 = (specAmountA 1 2 3 5, specAmountB 1 2 3 5) ∧
    (getAmountsFromLiquidityQ 1 2 3 5).2 = 0 ∧
    (getAmountsFromLiquidity 1 2 3 5 false).2 = 0 :=
  ⟨(getAmountsFromLiquidity_matches_spec 1 2 3 5 false).1,
   (getAmountsFromLiquidity_matches_spec 1 2 3 5 false).2 (by norm_num)⟩

/-! ## Claim C3: in-range liquidity from amounts -/

/-- **C3.**  For a price strictly inside the range,
`getLiquidityFromAmounts` is the floor of the minimum of the liquidity
implied by `amountA` alone and by `amountB` alone, and the result is
rounded down — never up. -/
theorem getLiquidityFromAmounts_inRange (p pl pu amountA amountB : ℕ)
    (h1 : (pl : ℚ) < (p : ℚ)) (h2 : (p : ℚ) < (pu : ℚ)) :
    getLiquidityFromAmounts p pl pu amountA amountB =
      ⌊min (specLiquidityFromA p pu amountA) (specLiquidityFromB p pl amountB)⌋ ∧
    (getLiquidityFromAmounts p pl pu amountA amountB : ℚ) ≤
      min (specLiquidityFromA p pu amountA) (specLiquidityFromB p pl amountB) := by
  have heq : getLiquidityFromAmounts p pl pu amountA amountB =
      ⌊min (specLiquidityFromA p pu amountA) (specLiquidityFromB p pl amountB)⌋ := by
    simp only [getLiquidityFromAmounts, specLiquidityFromA, specLiquidityFromB, Q64]
    rw [if_neg (not_le.mpr h1), if_neg (not_le.mpr h2)]
    norm_num
  refine ⟨heq, ?_⟩
  rw [heq]
  exact Int.floor_le _

/-- **C3 (witness).**  The in-range characterisation at the concrete
input `P_lower = 1 < P = 2 < P_upper = 4`, `amountA = 100`,
`amountB = 200`. -/
theorem getLiquidityFromAmounts_inRange_witness :
    getLiquidityFromAmounts 2 1 4 100 200 =
      ⌊min (specLiquidityFromA 2 4 100) (specLiquidityFromB 2 1 200)⌋ ∧
    (getLiquidityFromAmounts 2 1 4 100 200 : ℚ) ≤
      min (specLiquidityFromA 2 4 100) (specLiquidityFromB 2 1 200) :=
  getLiquidityFromAmounts_inRange 2 1 4 100 200 (by norm_num) (by norm_num)

/-! ## Claim C6: bucket start uses floored division -/

/-- **C6.**  `getTickArrayStartIndex tick spacing` is
`floor(tick / (8·spacing)) · (8·spacing)` with floored (toward `-∞`)
division: the result is the unique multiple of the bucket size that is at
most `tick` and within one bucket size of it — in particular at negative
ticks it floors rather than truncating toward zero (witness:
`tick = -120`, `spacing = 60` gives `-480`, not `0`). -/
theorem getTickArrayStartIndex_floored (tick tickSpacing : ℤ) (h : 0 < tickSpacing) :
    getTickArrayStartIndex tick tickSpacing = Int.fdiv tick (8 * tickSpacing) * (8 * tickSpacing) ∧
    (8 * tickSpacing) ∣ getTickArrayStartIndex tick tickSpacing ∧
    getTickArrayStartIndex tick tickSpacing ≤ tick ∧
    tick < getTickArrayStartIndex tick tickSpacing + 8 * tickSpacing := by
  have hm : (0:ℤ) < 8 * tickSpacing := by omega
  have hfe : Int.fdiv tick (8 * tickSpacing) = tick / (8 * tickSpacing) :=
    Int.fdiv_eq_ediv _ (by omega)
  have hmod1 : 0 ≤ tick % (8 * tickSpacing) := Int.emod_nonneg _ (by omega)
  have hmod2 : tick % (8 * tickSpacing) < 8 * tickSpacing := Int.emod_lt_of_pos _ hm
  have hdiv : 8 * tickSpacing * (tick / (8 * tickSpacing)) + tick % (8 * tickSpacing) = tick :=
    Int.ediv_add_emod _ _
  simp only [getTickArrayStartIndex]
  have hcomm : Int.fdiv tick (8 * tickSpacing) * (8 * tickSpacing) =
      8 * tickSpacing * (tick / (8 * tickSpacing)) := by rw [hfe]; ring
  refine ⟨trivial, dvd_mul_left _ _, ?_, ?_⟩ <;>
    · rw [hcomm]
      omega

/-- **C6 (witness).**  At `tick = -120`, `spacing = 60` (bucket size
`480`) the bucket start is `-480` — floored, not truncated toward zero. -/
theorem getTickArrayStartIndex_floored_witness :
    getTickArrayStartIndex (-120) 60 ≤ -120 ∧ -120 < getTickArrayStartIndex (-120) 60 + 8 * 60 ∧
    getTickArrayStartIndex (-120) 60 = -480 :=
  ⟨(getTickArrayStartIndex_floored (-120) 60 (by norm_num)).2.2.1,
   (getTickArrayStartIndex_floored (-120) 60 (by norm_num)).2.2.2,
   by decide⟩

/-! ## Claims C7 and C10: the swap bucket walk -/

/-- Length of the swap walk: one entry per loop iteration. -/
lemma swapTickArraysLoop_length (pool : Bytes) (tpa : ℤ) (aToB : Bool) :
    ∀ (count : ℕ) (start : ℤ), (swapTickArraysLoop pool tpa aToB count start).length = count := by
  intro count
  induction count with
  | zero => intro start; rfl
  | succ n ih =>
    intro start
    simp only [swapTickArraysLoop, List.length_cons, ih]

/-- Closed form of the start indices emitted by the swap walk. -/
lemma swapTickArraysLoop_snd (pool : Bytes) (tpa : ℤ) (aToB : Bool) :
    ∀ (count : ℕ) (start : ℤ),
      (swapTickArraysLoop pool tpa aToB count start).map Prod.snd =
        (List.range count).map (fun i : ℕ => start + (if aToB then -tpa else tpa) * (i : ℤ)) := by
  intro count
  induction count with
  | zero => intro start; rfl
  | succ n ih =>
    intro start
    rw [List.range_succ_eq_map]
    simp only [swapTickArraysLoop, List.map_cons, List.map_map, List.cons.injEq]
    constructor
    · push_cast
      ring
    · rw [ih]
      apply List.map_congr_left
      intro i _
      simp only [Function.comp_apply]
      split_ifs <;> (push_cast; ring)

/-- **C7.**  `getSwapTickArrays` returns exactly `count` start indices;
the first is the bucket start containing `currentTick`; each subsequent
start differs from the previous by exactly one bucket size
(`8·tickSpacing`), decreasing when `aToB` and increasing otherwise; and
the sequence is strictly monotone in the corresponding direction (hence
duplicate-free, with no gaps larger than one bucket size). -/
theorem getSwapTickArrays_walk (pool : Bytes) (currentTick tickSpacing : ℤ) (aToB : Bool)
    (count : ℕ) (hs : 0 < tickSpacing) (hc : 1 ≤ count) :
    ((getSwapTickArrays pool currentTick tickSpacing aToB count).map Prod.snd).length = count ∧
    ((getSwapTickArrays pool currentTick tickSpacing aToB count).map Prod.snd).get? 0 =
      some (getTickArrayStartIndex currentTick tickSpacing) ∧
    (∀ i : ℕ, i + 1 < count →
      ((getSwapTickArrays pool currentTick tickSpacing aToB count).map Prod.snd).get? (i + 1) =
        (((getSwapTickArrays pool currentTick tickSpacing aToB count).map Prod.snd).get? i).map
          (fun v => if aToB then v - 8 * tickSpacing else v + 8 * tickSpacing)) ∧
    (∀ i j : ℕ, i < j → j < count → ∀ vi vj,
      ((getSwapTickArrays pool currentTick tickSpacing aToB count).map Prod.snd).get? i =
        some vi →
      ((getSwapTickArrays pool currentTick tickSpacing aToB count).map Prod.snd).get? j =
        some vj →
      if aToB then vj < vi else vi < vj) := by
  have h8 : (0:ℤ) < 8 * tickSpacing := by omega
  simp only [getSwapTickArrays, swapTickArraysLoop_snd pool (8 * tickSpacing) aToB]
  refine ⟨by simp, ?_, ?_, ?_⟩
  · rw [List.get?_map, List.get?_range (by omega)]
    simp
  · intro i hi
    rw [List.get?_map, List.get?_map, List.get?_range (by omega), List.get?_range (by omega)]
    rw [Option.map_some']
    congr 1
    split_ifs <;> (push_cast; ring)
  · intro i j hij hj vi vj hvi hvj
    rw [List.get?_map, List.get?_range (by omega)] at hvi hvj
    simp only [Option.map_some', Option.some.injEq] at hvi hvj
    have hcast : (i : ℤ) < (j : ℤ) := by exact_mod_cast hij
    have hmul : 8 * tickSpacing * (i : ℤ) < 8 * tickSpacing * (j : ℤ) :=
      mul_lt_mul_of_pos_left hcast h8
    subst hvi hvj
    split_ifs with ha <;> linarith

/-- **C7 (witness).**  The walk properties at the concrete input
`currentTick = 1000`, `spacing = 60`, direction `aToB`, `count = 3`. -/
theorem getSwapTickArrays_walk_witness :
    ((getSwapTickArrays [] 1000 60 true 3).map Prod.snd).length = 3 ∧
    ((getSwapTickArrays [] 1000 60 true 3).map Prod.snd).get? 0 =
      some (getTickArrayStartIndex 1000 60) :=
  ⟨(getSwapTickArrays_walk [] 1000 60 true 3 (by norm_num) (by norm_num)).1,
   (getSwapTickArrays_walk [] 1000 60 true 3 (by norm_num) (by norm_num)).2.1⟩

/-- **C10.**  `getSwapTickArrays` performs no domain-bounds clamping or
filtering: it always returns exactly `count` entries, and at the valid
input `currentTick = MAX_TICK`, `aToB = false`, `count = 3`,
`spacing = 60` the returned starts `[443520, 444000, 444480]` include
buckets entirely above `MAX_TICK`. -/
theorem getSwapTickArrays_no_clamp :
    (∀ (pool : Bytes) (currentTick tickSpacing : ℤ) (aToB : Bool) (count : ℕ),
      (getSwapTickArrays pool currentTick tickSpacing aToB count).length = count) ∧
    (getSwapTickArrays [] MAX_TICK 60 false 3).map Prod.snd = [443520, 444000, 444480] ∧
    MAX_TICK < 444000 ∧ MAX_TICK < 444480 := by
  refine ⟨fun pool t s aToB count =>
    swapTickArraysLoop_length pool (8 * s) aToB count (getTickArrayStartIndex t s), ?_, ?_, ?_⟩
  · decide
  · norm_num [MAX_TICK]
  · norm_num [MAX_TICK]

/-! ## Claims C8 and C9: canonical mint ordering and pool key derivation -/

/-- `compareBytes` returns `eq` exactly on identical byte arrays. -/
lemma compareBytes_eq_iff : ∀ {a b : Bytes}, compareBytes a b = .eq ↔ a = b := by
  intro a
  induction a with
  | nil =>
    intro b
    cases b <;> simp [compareBytes]
  | cons x xs ih =>
    intro b
    cases b with
    | nil => simp [compareBytes]
    | cons y ys =>
      simp only [compareBytes]
      split_ifs with h1 h2
      · simp
        omega
      · simp
        omega
      · have hxy : x = y := by omega
        rw [ih]
        simp [hxy]

/-- Swapping the arguments of `compareBytes` swaps the ordering. -/
lemma compareBytes_swap : ∀ (a b : Bytes), compareBytes b a = (compareBytes a b).swap := by
  intro a
  induction a with
  | nil =>
    intro b
    cases b <;> rfl
  | cons x xs ih =>
    intro b
    cases b with
    | nil => rfl
    | cons y ys =>
      simp only [compareBytes]
      split_ifs with h1 h2 h3 <;> first
        | rfl
        | omega
        | exact ih ys

/-- **C9.**  Supplying two equal mints to the ordering, or to pool key
derivation, fails with the typed identity error
(`Error("Token mints must be different")` in the source); the equal pair
is never silently deduplicated into a derived key. -/
theorem orderTokenMints_equal_fails (mint : Bytes) (feeRate : ℕ) :
    orderTokenMints mint mint = .error "Token mints must be different" ∧
    getPoolPda mint mint feeRate = .error "Token mints must be different" := by
  have h : compareBytes mint mint = .eq := compareBytes_eq_iff.mpr rfl
  constructor
  · unfold orderTokenMints
    rw [h]
  · unfold getPoolPda orderTokenMints
    rw [h]
    rfl

/-- **C8.**  For distinct mints, `orderTokenMints` is symmetric (both
argument orders return the same ordered pair, smaller mint first),
idempotent (applying it to its own output returns that output), and pool
key derivation is order-insensitive:
`getPoolPda a b f = getPoolPda b a f`. -/
theorem orderTokenMints_symm_idem (a b : Bytes) (feeRate : ℕ) (hne : a ≠ b) :
    orderTokenMints a b = orderTokenMints b a ∧
    (∀ x y, orderTokenMints a b = .ok (x, y) → orderTokenMints x y = .ok (x, y)) ∧
    getPoolPda a b feeRate = getPoolPda b a feeRate := by
  have hswap := compareBytes_swap a b
  have hcomm : orderTokenMints a b = orderTokenMints b a := by
    unfold orderTokenMints
    cases h : compareBytes a b with
    | lt => rw [hswap, h]; rfl
    | gt => rw [hswap, h]; rfl
    | eq => rw [hswap, h]; rfl
  refine ⟨hcomm, ?_, ?_⟩
  · intro x y hxy
    unfold orderTokenMints at hxy ⊢
    cases h : compareBytes a b with
    | lt =>
      rw [h] at hxy
      simp only [Except.ok.injEq, Prod.mk.injEq] at hxy
      obtain ⟨hx, hy⟩ := hxy
      subst hx
      subst hy
      rw [h]
    | gt =>
      rw [h] at hxy
      simp only [Except.ok.injEq, Prod.mk.injEq] at hxy
      obtain ⟨hx, hy⟩ := hxy
      subst hx
      subst hy
      have : compareBytes b a = .lt := by rw [hswap, h]; rfl
      rw [this]
    | eq =>
      exact absurd (compareBytes_eq_iff.mp h) hne
  · unfold getPoolPda
    rw [hcomm]

/-- **C8 (witness).**  Symmetry and key agreement at the concrete
distinct mints `[0]` and `[1]` with fee rate `3000`. -/
theorem orderTokenMints_symm_idem_witness :
    orderTokenMints [0] [1] = orderTokenMints [1] [0] ∧
    getPoolPda [0] [1] 3000 = getPoolPda [1] [0] 3000 :=
  ⟨(orderTokenMints_symm_idem [0] [1] 3000 (by decide)).1,
   (orderTokenMints_symm_idem [0] [1] 3000 (by decide)).2.2⟩
